import Mathlib

/-!
Verification development for the RAG-service core of this repository:
the document chunker (`DocumentProcessor._create_chunks`), the hybrid
search ranker (`HybridSearch.search` / `_combine_search_results`) and the
LLM result formatter (`LLMService`).

The Python code is shallowly embedded: character positions are `Int`
(Python integers, which may go negative during the chunker loop),
scores and weights are `ℚ`, the `while` loop of the chunker becomes a
fuel-indexed recursion returning `none` when the fuel is exhausted, and
Python dictionaries become association lists with insertion-order
semantics.  Python's slice/`str.rfind` index normalization (negative
indices count from the end, then clamp into `[0, len]`) is reproduced
exactly, because the chunker loop does reach negative `start` values.
-/

namespace RagService

/-! ## Python string primitives

`pyNorm` is the index normalization Python applies to slice bounds and to
the `start`/`end` arguments of `str.rfind`: a negative index is shifted
by the length, then the result is clamped into `[0, len]`. -/

def pyNorm (len : Int) (i : Int) : Int :=
  max 0 (min len (if i < 0 then len + i else i))

/-- Index (from the back) of the last occurrence of `c`, as an offset
from the front: `lastIdx c l = some i` means `l[i] = c` and no later
position holds `c`. -/
def lastIdx (c : Char) : List Char → Option Nat
  | [] => none
  | x :: xs =>
    match lastIdx c xs with
    | some i => some (i + 1)
    | none => if x = c then some 0 else none

/-- Python slice `text[a:b]`. -/
def pySlice (t : List Char) (a b : Int) : List Char :=
  let na := (pyNorm t.length a).toNat
  let nb := (pyNorm t.length b).toNat
  (t.drop na).take (nb - na)

/-- Python `text.rfind(c, a, b)`: the largest index `i`
with `na ≤ i < nb` and `text[i] = c`, or `-1` if there is none. -/
def pyRfind (t : List Char) (c : Char) (a b : Int) : Int :=
  let na := (pyNorm t.length a).toNat
  let nb := (pyNorm t.length b).toNat
  match lastIdx c ((t.drop na).take (nb - na)) with
  | some i => (na + i : Nat)
  | none => -1

/-- Python `str.strip()` on a list of characters (ASCII whitespace; the
exotic Unicode space characters Python also strips play no role here). -/
def pyStrip (l : List Char) : List Char :=
  ((l.dropWhile Char.isWhitespace).reverse.dropWhile Char.isWhitespace).reverse

/-! ## The chunker (`DocumentProcessor._create_chunks`)

The page-number estimate stored in each chunk's metadata is a
floating-point heuristic that none of the verified properties touch; the
embedded `Chunk` carries the fields the loop actually computes with:
`text`, `chunk_index`, `start_char`, `end_char`. -/

structure Chunk where
  text : List Char
  chunk_index : Nat
  start_char : Int
  end_char : Int
  deriving Repr, DecidableEq

/-- The `end` position the loop body computes for a given `start`:
propose `start + chunk_size`; if that lies strictly before the end of
the text, snap back to the last `'.'` (inclusive) in the final
100-character window, else to the last `' '`, provided the found
position is `> start`. -/
def chunkEnd (t : List Char) (chunk_size : Int) (start : Int) : Int :=
  let e0 := start + chunk_size
  if e0 < (t.length : Int) then
    let search_start := max start (e0 - 100)
    let sentence_end := pyRfind t '.' search_start e0
    if start < sentence_end then sentence_end + 1
    else
      let word_end := pyRfind t ' ' search_start e0
      if start < word_end then word_end else e0
  else e0

/-- One fuel-indexed unfolding of the `while start < len(text)` loop of
`_create_chunks`.  Returns `none` when the fuel runs out, i.e. when the
Python loop has not terminated within `fuel` iterations. -/
def createChunksGo (t : List Char) (chunk_size chunk_overlap : Int) :
    Nat → Int → Nat → List Chunk → Option (List Chunk)
  | 0, _, _, _ => none
  | fuel + 1, start, chunk_index, acc =>
    if start < (t.length : Int) then
      let e := chunkEnd t chunk_size start
      let chunk_text := pyStrip (pySlice t start e)
      let acc' := if chunk_text.isEmpty then acc
        else acc ++ [⟨chunk_text, chunk_index, start, e⟩]
      let idx' := if chunk_text.isEmpty then chunk_index else chunk_index + 1
      let start' := e - chunk_overlap
      if (t.length : Int) ≤ start' then some acc'
      else createChunksGo t chunk_size chunk_overlap fuel start' idx' acc'
    else some acc

/-- Embedding of `DocumentProcessor._create_chunks`:
empty output on whitespace-only text, otherwise the loop from
`start = 0`.  `fuel` bounds the number of loop iterations. -/
def createChunks (t : List Char) (chunk_size chunk_overlap : Int)
    (fuel : Nat) : Option (List Chunk) :=
  if (pyStrip t).isEmpty then some []
  else createChunksGo t chunk_size chunk_overlap fuel 0 0 []

/-! ## Hybrid search (`HybridSearch`)

Scores and weights are embedded as `ℚ`.  A raw sub-query result is one
element of the list returned by `vector_store.search_similar` /
`search_text`; the metadata fields are exactly the ones
`_combine_search_results` reads when it synthesizes the citation. -/

structure ResultMetadata where
  filename : Option String
  page_number : Option Int
  start_char : Option Int
  end_char : Option Int
  file_type : Option String
  ingestion_date : Option String
  deriving Repr, DecidableEq

structure RawResult where
  document_id : String
  chunk_index : Int
  text : String
  score : ℚ
  metadata : ResultMetadata
  deriving Repr, DecidableEq

/-- The dictionary key `f"{document_id}_{chunk_index}"`. -/
def rkey (r : RawResult) : String :=
  r.document_id ++ "_" ++ toString r.chunk_index

/-- An entry of `combined_dict`. -/
structure CombinedEntry where
  document_id : String
  chunk_index : Int
  text : String
  vector_score : ℚ
  keyword_score : ℚ
  combined_score : ℚ
  metadata : ResultMetadata
  deriving Repr, DecidableEq

/-- The citation dictionary synthesized per formatted result. -/
structure Citation where
  document_id : String
  filename : String
  page_number : Option Int
  chunk_index : Int
  start_char : Option Int
  end_char : Option Int
  document_type : Option String
  ingestion_date : Option String
  deriving Repr, DecidableEq

/-- One element of the list `_combine_search_results` returns. -/
structure FormattedResult where
  document_id : String
  chunk_index : Int
  text : String
  score : ℚ
  metadata : ResultMetadata
  citation : Citation
  deriving Repr, DecidableEq

/-! Python `dict` embedded as an association list in insertion order:
assigning to an existing key updates the value in place (keeping the
key's position), assigning to a fresh key appends. -/

/-- Assignment `d[k] = e` on a Python dict. -/
def setVal (k : String) (e : CombinedEntry) :
    List (String × CombinedEntry) → List (String × CombinedEntry)
  | [] => [(k, e)]
  | (k', e') :: rest =>
    if k' = k then (k', e) :: rest else (k', e') :: setVal k e rest

/-- Update the value at `k` in place if present; identity otherwise. -/
def modifyVal (k : String) (f : CombinedEntry → CombinedEntry) :
    List (String × CombinedEntry) → List (String × CombinedEntry)
  | [] => []
  | (k', e') :: rest =>
    if k' = k then (k', f e') :: rest else (k', e') :: modifyVal k f rest

/-- Dict lookup. -/
def alookup (k : String) : List (String × CombinedEntry) → Option CombinedEntry
  | [] => none
  | (k', e') :: rest => if k' = k then some e' else alookup k rest

/-- The entry built for a vector-branch result. -/
def mkVecEntry (vector_weight : ℚ) (r : RawResult) : CombinedEntry :=
  ⟨r.document_id, r.chunk_index, r.text, r.score, 0,
    r.score * vector_weight, r.metadata⟩

/-- The entry built for a keyword-branch result whose key is new. -/
def mkKwEntry (keyword_weight : ℚ) (r : RawResult) : CombinedEntry :=
  ⟨r.document_id, r.chunk_index, r.text, 0, r.score,
    r.score * keyword_weight, r.metadata⟩

/-- First loop of `_combine_search_results`: every vector result is
assigned into the dict under its key. -/
def processVector (vector_weight : ℚ) (v : List RawResult) :
    List (String × CombinedEntry) :=
  v.foldl (fun d r => setVal (rkey r) (mkVecEntry vector_weight r) d) []

/-- The in-place update the keyword loop applies to an entry whose key
it hits: overwrite `keyword_score`, accumulate into `combined_score`. -/
def kwUpdate (keyword_weight : ℚ) (r : RawResult) (e : CombinedEntry) :
    CombinedEntry :=
  { e with keyword_score := r.score,
           combined_score := e.combined_score + r.score * keyword_weight }

/-- One step of the second loop of `_combine_search_results`: a keyword
result whose key is present updates the entry in place; a fresh key
appends a keyword-only entry. -/
def pkStep (keyword_weight : ℚ) (d : List (String × CombinedEntry))
    (r : RawResult) : List (String × CombinedEntry) :=
  if (alookup (rkey r) d).isSome then
    modifyVal (rkey r) (kwUpdate keyword_weight r) d
  else d ++ [(rkey r, mkKwEntry keyword_weight r)]

/-- Second loop of `_combine_search_results`. -/
def processKeyword (keyword_weight : ℚ) (d : List (String × CombinedEntry))
    (kw : List RawResult) : List (String × CombinedEntry) :=
  kw.foldl (pkStep keyword_weight) d

/-- The values `list(combined_dict.values())`, in insertion order. -/
def combineValues (v kw : List RawResult) (vector_weight keyword_weight : ℚ) :
    List CombinedEntry :=
  (processKeyword keyword_weight (processVector vector_weight v) kw).map Prod.snd

/-- The comparison `combined_results.sort(key=..., reverse=True)` sorts
by: descending `combined_score`, stable. -/
def scoreDesc (a b : CombinedEntry) : Bool :=
  decide (b.combined_score ≤ a.combined_score)

/-- The sorted combined list, before truncation. -/
def combineSorted (v kw : List RawResult) (vector_weight keyword_weight : ℚ) :
    List CombinedEntry :=
  (combineValues v kw vector_weight keyword_weight).mergeSort scoreDesc

/-- The citation synthesized from an entry's metadata
(`metadata.get("filename", "Unknown")` etc.). -/
def mkCitation (e : CombinedEntry) : Citation :=
  ⟨e.document_id, e.metadata.filename.getD "Unknown", e.metadata.page_number,
    e.chunk_index, e.metadata.start_char, e.metadata.end_char,
    e.metadata.file_type, e.metadata.ingestion_date⟩

/-- The final per-result dictionary (`score` is the combined score). -/
def toFormatted (e : CombinedEntry) : FormattedResult :=
  ⟨e.document_id, e.chunk_index, e.text, e.combined_score, e.metadata,
    mkCitation e⟩

/-- Embedding of `HybridSearch._combine_search_results`. -/
def combineSearchResults (v kw : List RawResult)
    (vector_weight keyword_weight : ℚ) (limit : Nat) : List FormattedResult :=
  ((combineSorted v kw vector_weight keyword_weight).take limit).map toFormatted

/-- Normalized vector weight: division happens only when the total is
strictly positive. -/
def normVW (vector_weight keyword_weight : ℚ) : ℚ :=
  if 0 < vector_weight + keyword_weight then
    vector_weight / (vector_weight + keyword_weight)
  else vector_weight

/-- Normalized keyword weight. -/
def normKW (vector_weight keyword_weight : ℚ) : ℚ :=
  if 0 < vector_weight + keyword_weight then
    keyword_weight / (vector_weight + keyword_weight)
  else keyword_weight

/-- Embedding of `HybridSearch.search`, with the two sub-query outcomes as inputs:
`asyncio.gather(..., return_exceptions=True)` delivers each branch's
exception as a value, and the code replaces a failed branch by `[]`.
Nothing else inside the surrounding `try` can raise in the embedded
fragment, so the outer `except ...: raise` is unreachable and the
function always produces a result. -/
def hybridSearch (vres kres : Except String (List RawResult))
    (vector_weight keyword_weight : ℚ) (limit : Nat) :
    Except String (List FormattedResult) :=
  let vw := normVW vector_weight keyword_weight
  let kw := normKW vector_weight keyword_weight
  let v := match vres with | .ok r => r | .error _ => []
  let k := match kres with | .ok r => r | .error _ => []
  .ok (combineSearchResults v k vw kw limit)

/-! ## LLM formatter (`LLMService`)

The external OpenAI call is an input of the embedding: a function from
the user prompt to either the completion text or a raised exception.
`openai_client` is `some ()` when `initialize` found an API key. -/

/-- Embedding of `LLMService.format_content`.  `provider or self.default_provider`
falls back on both `None` and the empty string (Python truthiness). -/
def formatContent (client : Option Unit) (default_provider : String)
    (provider : Option String) (llm : String → Except String String)
    (content query : String) : String :=
  let p := match provider with
    | some s => if s = "" then default_provider else s
    | none => default_provider
  if p = "openai" ∧ client.isSome then
    -- `_format_with_openai` sends `f"{query}\n\n\n{content}"`; the
    -- enclosing `try` returns `content` on any exception.
    match llm (query ++ "\n\n\n" ++ content) with
    | .ok t => t
    | .error _ => content
  else content

/-- Embedding of `LLMService._format_citation`: `[i]`, plus the filename when truthy,
plus `, Page N` when `page_number` is truthy (`0` is falsy). -/
def formatCitation (c : Citation) (i : Nat) : String :=
  let s := "[" ++ toString i ++ "]"
  let s := if c.filename ≠ "" then s ++ " " ++ c.filename else s
  match c.page_number with
  | some n => if n ≠ 0 then s ++ ", Page " ++ toString n else s
  | none => s

/-- Embedding of `LLMService.extract_text_only`: results with truthy `text` become
`f"{text.strip()}\n\nSource: {citation}"`, joined by blank lines; the
citation index is the 1-based position in the input list. -/
def extractTextOnly (results : List FormattedResult) : String :=
  let parts := (List.enumFrom 1 results).filterMap fun ri =>
    if ri.2.text ≠ "" then
      some (ri.2.text.trim ++ "\n\nSource: " ++ formatCitation ri.2.citation ri.1)
    else none
  String.intercalate "\n\n" parts

/-- The shapes of dictionary `LLMService.format_search_results` returns. -/
inductive FormatOutput where
  | textOnly (text_content : String) (total_results : Nat)
      (formatting_applied : Bool)
  | formattedText (formatted_content original_text : String)
      (total_results : Nat) (formatting_applied : Bool)
  | full (results : List FormattedResult) (total_results : Nat)
      (formatting_applied : Bool)
  | fullFormatted (results : List (FormattedResult × String))
      (total_results : Nat) (formatting_applied : Bool)
  deriving DecidableEq

/-- The per-result branch of `format_search_results` (`llm_format` with a
client, `text_only=False`): each result gains a `formatted_text` field
produced by `format_content` on the text plus its citation line. -/
def formatEachResult (client : Option Unit) (default_provider : String)
    (provider : Option String) (llm : String → Except String String)
    (query : String) (results : List FormattedResult) :
    List (FormattedResult × String) :=
  (List.enumFrom 1 results).map fun ri =>
    let text_with_citation :=
      ri.2.text ++ "\n\nSource: " ++ formatCitation ri.2.citation ri.1
    (ri.2, formatContent client default_provider provider llm text_with_citation query)

/-- Embedding of `LLMService.format_search_results`. -/
def formatSearchResults (client : Option Unit) (default_provider : String)
    (provider : Option String) (llm : String → Except String String)
    (results : List FormattedResult) (query : String)
    (text_only llm_format : Bool) : FormatOutput :=
  if text_only then
    let text_content := extractTextOnly results
    if llm_format ∧ client.isSome then
      .formattedText
        (formatContent client default_provider provider llm text_content query)
        text_content results.length true
    else .textOnly text_content results.length false
  else
    if llm_format ∧ client.isSome then
      .fullFormatted
        (formatEachResult client default_provider provider llm query results)
        results.length true
    else .full results results.length false

/-- An empty result metadata record, used by concrete instances below. -/
def emptyMetadata : ResultMetadata := ⟨none, none, none, none, none, none⟩

/-! Sanity checks of the embedding against hand-run traces of the Python
loop. -/

example : createChunks "abc".data 2 1 10 =
    some [⟨['a', 'b'], 0, 0, 2⟩, ⟨['b', 'c'], 1, 1, 3⟩, ⟨['c'], 2, 2, 4⟩] := by
  decide

example : createChunks "a aaa".data 4 2 10 =
    some [⟨['a'], 0, 0, 1⟩, ⟨['a', 'a', 'a'], 1, 1, 5⟩, ⟨['a', 'a'], 2, 3, 7⟩] := by
  decide

example : createChunks "   ".data 4 2 10 = some [] := by decide

/-! Sanity check of the merge against the end-to-end example of the
specification (§8): vector `{doc1, 0, 0.9}`, keyword `{doc1, 0, 0.4}`
and `{doc2, 1, 0.8}`, weights `0.7/0.3`, gives scores `0.75, 0.24`. -/

example :
    (combineSearchResults
      [⟨"doc1", 0, "t1", 9/10, emptyMetadata⟩]
      [⟨"doc1", 0, "t1", 2/5, emptyMetadata⟩, ⟨"doc2", 1, "t2", 4/5, emptyMetadata⟩]
      (7/10) (3/10) 10).map FormattedResult.score = [3/4, 6/25] := by
  simp +decide [combineSearchResults, combineSorted, combineValues, processKeyword,
    processVector, List.mergeSort, setVal, modifyVal, alookup, rkey, mkVecEntry,
    mkKwEntry, kwUpdate, pkStep, scoreDesc, toFormatted, List.merge]
  norm_num [toFormatted, kwUpdate]

/-! ## Claim C9 -/

/-- C9: for every content string and query, if the external LLM call
raises, `LLMService.format_content` returns the original unformatted
content unchanged instead of propagating the exception. -/
theorem c9_format_content_error_returns_content
    (client : Option Unit) (default_provider : String)
    (provider : Option String) (llm : String → Except String String)
    (content query err : String)
    (h : llm (query ++ "\n\n\n" ++ content) = .error err) :
    formatContent client default_provider provider llm content query = content := by
  cases provider <;> simp [formatContent, h]

theorem c9_format_content_error_returns_content_witness :
    formatContent (some ()) "openai" none (fun _ => .error "connection reset")
      "the original content" "a query" = "the original content" :=
  c9_format_content_error_returns_content (some ()) "openai" none
    (fun _ => .error "connection reset") "the original content" "a query"
    "connection reset" rfl

/-! ## Claim C10 -/

/-- C10: when `llm_format=true` is requested but no LLM client is
configured, `LLMService.format_search_results` silently degrades: the
unformatted content is returned (`text_content` when `text_only=true`,
the results unchanged otherwise) with `formatting_applied=false` and no
error. -/
theorem c10_format_search_results_no_client_degrades
    (default_provider : String) (provider : Option String)
    (llm : String → Except String String) (results : List FormattedResult)
    (query : String) (text_only : Bool) :
    formatSearchResults none default_provider provider llm results query
      text_only true =
    if text_only then
      .textOnly (extractTextOnly results) results.length false
    else
      .full results results.length false := by
  cases text_only <;> rfl

/-! ## Claim C1 -/

/-- Counterexample to C1: with both sub-queries failing,
`HybridSearch.search` does not fail — it returns a successful empty
result list (both exceptions are converted to `[]` by the
`return_exceptions=True` handling). -/
theorem c1_counterexample :
    hybridSearch (.error "vector search failed") (.error "keyword search failed")
      (7/10) (3/10) 10 = .ok [] := by
  simp [hybridSearch, combineSearchResults, combineSorted, combineValues,
    processKeyword, processVector]

/-- C1 (amended): when both search branches fail, `HybridSearch.search`
returns a successful empty result rather than surfacing an error, and no
sub-query failure is ever propagated: the search always returns a
successful result list. -/
theorem c1_search_never_propagates_branch_failures
    (vector_weight keyword_weight : ℚ) (limit : Nat) :
    (∀ ev ek : String,
      hybridSearch (.error ev) (.error ek) vector_weight keyword_weight limit
        = .ok []) ∧
    (∀ vres kres : Except String (List RawResult), ∃ out,
      hybridSearch vres kres vector_weight keyword_weight limit = .ok out) := by
  constructor
  · intro ev ek
    simp [hybridSearch, combineSearchResults, combineSorted, combineValues,
      processKeyword, processVector]
  · intro vres kres
    exact ⟨_, rfl⟩

/-! ## Supporting lemmas on the merge -/

theorem scoreDesc_trans (a b c : CombinedEntry) :
    scoreDesc a b → scoreDesc b c → scoreDesc a c := by
  simp only [scoreDesc, decide_eq_true_eq]
  exact fun h1 h2 => le_trans h2 h1

theorem scoreDesc_total (a b : CombinedEntry) :
    scoreDesc a b || scoreDesc b a := by
  simp only [scoreDesc, Bool.or_eq_true, decide_eq_true_eq]
  exact le_total _ _

/-- The sorted combined list is ordered by descending combined score. -/
theorem sorted_combineSorted (v kw : List RawResult) (wv wk : ℚ) :
    (combineSorted v kw wv wk).Pairwise
      (fun a b => b.combined_score ≤ a.combined_score) := by
  have h := List.sorted_mergeSort scoreDesc_trans scoreDesc_total
    (combineValues v kw wv wk)
  exact h.imp (by simp only [scoreDesc, decide_eq_true_eq]; exact id)

theorem mem_setVal {p : String × CombinedEntry} {k : String}
    {e : CombinedEntry} {d : List (String × CombinedEntry)}
    (h : p ∈ setVal k e d) : p.2 = e ∨ p ∈ d := by
  induction d with
  | nil => simp_all [setVal]
  | cons q rest ih =>
    simp only [setVal] at h
    split at h
    · rw [List.mem_cons] at h
      rcases h with h | h
      · left; rw [h]
      · right; exact List.mem_cons_of_mem _ h
    · rw [List.mem_cons] at h
      rcases h with h | h
      · right; rw [h]; exact List.mem_cons_self _ _
      · rcases ih h with h' | h'
        · left; exact h'
        · right; exact List.mem_cons_of_mem _ h'

theorem mem_foldl_setVal {v : List RawResult} (wv : ℚ) :
    ∀ {d : List (String × CombinedEntry)} {p : String × CombinedEntry},
      p ∈ v.foldl (fun d r => setVal (rkey r) (mkVecEntry wv r) d) d →
      (∃ x ∈ v, p.2 = mkVecEntry wv x) ∨ p ∈ d := by
  induction v with
  | nil => exact fun h => .inr h
  | cons r rest ih =>
    intro d p h
    rcases ih h with h' | h'
    · obtain ⟨x, hx, hpx⟩ := h'
      exact .inl ⟨x, List.mem_cons_of_mem _ hx, hpx⟩
    · rcases mem_setVal h' with h'' | h''
      · exact .inl ⟨r, List.mem_cons_self _ _, h''⟩
      · exact .inr h''

/-- Every entry the vector loop produces comes from a vector result. -/
theorem mem_processVector {wv : ℚ} {v : List RawResult}
    {p : String × CombinedEntry} (h : p ∈ processVector wv v) :
    ∃ x ∈ v, p.2 = mkVecEntry wv x := by
  rcases mem_foldl_setVal wv h with h' | h'
  · exact h'
  · simp at h'

/-! ## Claim C7 -/

/-- C7: the weights are normalized to sum to 1 whenever their sum is
positive and are left untouched when their sum is 0; consequently
`search` with weights `(2, 2)` returns exactly the same output as with
weights `(1, 1)`. -/
theorem c7_weight_normalization
    (vres kres : Except String (List RawResult)) (limit : Nat) :
    hybridSearch vres kres 2 2 limit = hybridSearch vres kres 1 1 limit ∧
    (∀ wv wk : ℚ, 0 < wv + wk → normVW wv wk + normKW wv wk = 1) ∧
    (∀ wv wk : ℚ, wv + wk = 0 → normVW wv wk = wv ∧ normKW wv wk = wk) := by
  refine ⟨?_, ?_, ?_⟩
  · have h1 : normVW 2 2 = normVW 1 1 := by norm_num [normVW]
    have h2 : normKW 2 2 = normKW 1 1 := by norm_num [normKW]
    simp only [hybridSearch, h1, h2]
  · intro wv wk h
    have hne : wv + wk ≠ 0 := ne_of_gt h
    simp only [normVW, normKW, if_pos h]
    rw [div_add_div_same, div_self hne]
  · intro wv wk h
    have h' : ¬ 0 < wv + wk := by rw [h]; exact lt_irrefl 0
    simp [normVW, normKW, h']

theorem c7_weight_normalization_witness :
    hybridSearch (Except.ok ([] : List RawResult)) (.ok []) 2 2 10
        = hybridSearch (.ok []) (.ok []) 1 1 10 ∧
    ((0 : ℚ) < 1 + 1 ∧ normVW 1 1 + normKW 1 1 = 1) ∧
    ((2 : ℚ) + -2 = 0 ∧ normVW 2 (-2) = 2 ∧ normKW 2 (-2) = -2) :=
  ⟨(c7_weight_normalization (.ok []) (.ok []) 10).1,
    ⟨by norm_num,
      (c7_weight_normalization (.ok []) (.ok []) 10).2.1 1 1 (by norm_num)⟩,
    ⟨by norm_num,
      (c7_weight_normalization (.ok []) (.ok []) 10).2.2 2 (-2) (by norm_num)⟩⟩

/-! ## Dictionary lookup lemmas -/

theorem alookup_isSome_iff {k : String} {d : List (String × CombinedEntry)} :
    (alookup k d).isSome ↔ k ∈ d.map Prod.fst := by
  induction d with
  | nil => simp [alookup]
  | cons q rest ih =>
    simp only [alookup, List.map_cons, List.mem_cons]
    split
    · simp_all
    · rw [ih]
      constructor
      · exact .inr
      · rintro (h | h)
        · exact absurd h.symm (by assumption)
        · exact h

theorem alookup_setVal_ne {k k' : String} {e : CombinedEntry}
    {d : List (String × CombinedEntry)} (h : k' ≠ k) :
    alookup k (setVal k' e d) = alookup k d := by
  induction d with
  | nil => simp [setVal, alookup, h]
  | cons q rest ih =>
    simp only [setVal]
    split
    · simp only [alookup]
      split
      · exact absurd (by simp_all) h
      · rfl
    · simp only [alookup]
      split
      · rfl
      · exact ih

theorem alookup_modifyVal_self {k : String} {f : CombinedEntry → CombinedEntry}
    {d : List (String × CombinedEntry)} :
    alookup k (modifyVal k f d) = (alookup k d).map f := by
  induction d with
  | nil => simp [modifyVal, alookup]
  | cons q rest ih =>
    simp only [modifyVal]
    split
    · simp_all [alookup]
    · simp_all [alookup]

theorem alookup_modifyVal_ne {k k' : String} {f : CombinedEntry → CombinedEntry}
    {d : List (String × CombinedEntry)} (h : k' ≠ k) :
    alookup k (modifyVal k' f d) = alookup k d := by
  induction d with
  | nil => simp [modifyVal]
  | cons q rest ih =>
    simp only [modifyVal]
    split
    · simp only [alookup]
      split
      · exact absurd (by simp_all) h
      · rfl
    · simp only [alookup]
      split
      · rfl
      · exact ih

theorem alookup_append_single {k k' : String} {e : CombinedEntry}
    {d : List (String × CombinedEntry)} :
    alookup k (d ++ [(k', e)]) =
      match alookup k d with
      | some x => some x
      | none => if k' = k then some e else none := by
  induction d with
  | nil => simp [alookup]
  | cons q rest ih =>
    simp only [List.cons_append, alookup]
    split
    · rfl
    · exact ih

theorem keys_modifyVal {k : String} {f : CombinedEntry → CombinedEntry}
    {d : List (String × CombinedEntry)} :
    (modifyVal k f d).map Prod.fst = d.map Prod.fst := by
  induction d with
  | nil => rfl
  | cons q rest ih =>
    simp only [modifyVal]
    split <;> simp_all

theorem setVal_of_not_mem {k : String} {e : CombinedEntry}
    {d : List (String × CombinedEntry)} (h : k ∉ d.map Prod.fst) :
    setVal k e d = d ++ [(k, e)] := by
  induction d with
  | nil => rfl
  | cons q rest ih =>
    simp only [List.map_cons, List.mem_cons, not_or] at h
    have hne : ¬ q.1 = k := fun hh => h.1 hh.symm
    simp only [setVal, if_neg hne, List.cons_append]
    rw [ih h.2]

/-- Under distinct vector keys, the first loop of
`_combine_search_results` builds the dictionary whose pairs are the
vector results in order. -/
theorem processVector_eq_map {wv : ℚ} {v : List RawResult}
    (hv : (v.map rkey).Nodup) :
    processVector wv v = v.map fun r => (rkey r, mkVecEntry wv r) := by
  suffices h : ∀ (v : List RawResult) (d : List (String × CombinedEntry)),
      (v.map rkey).Nodup → (∀ r ∈ v, rkey r ∉ d.map Prod.fst) →
      v.foldl (fun d r => setVal (rkey r) (mkVecEntry wv r) d) d
        = d ++ v.map (fun r => (rkey r, mkVecEntry wv r)) by
    simpa using h v [] hv (by simp)
  intro v
  induction v with
  | nil => simp
  | cons r rest ih =>
    intro d hnd hdisj
    simp only [List.map_cons, List.nodup_cons] at hnd
    simp only [List.foldl_cons, List.map_cons]
    rw [setVal_of_not_mem (hdisj r (List.mem_cons_self _ _))]
    rw [ih (d ++ [(rkey r, mkVecEntry wv r)]) hnd.2 ?_]
    · simp
    · intro x hx
      simp only [List.map_append, List.mem_append, List.map_cons, not_or]
      refine ⟨hdisj x (List.mem_cons_of_mem _ hx), ?_⟩
      simp only [List.map_nil, List.mem_singleton]
      exact fun hh => hnd.1 (hh ▸ List.mem_map_of_mem rkey hx)

theorem alookup_map_mk {k : String} {v : List RawResult}
    {mk : RawResult → CombinedEntry} :
    alookup k (v.map fun r => (rkey r, mk r))
      = (v.find? fun r => rkey r == k).map mk := by
  induction v with
  | nil => rfl
  | cons r rest ih =>
    by_cases h : rkey r = k
    · simp [alookup, List.find?_cons, h]
    · have hb : (rkey r == k) = false := by simpa using h
      simp [alookup, List.find?_cons, h, hb, ih]

theorem alookup_pkStep_ne {wk : ℚ} {k : String} {r : RawResult}
    {d : List (String × CombinedEntry)} (h : rkey r ≠ k) :
    alookup k (pkStep wk d r) = alookup k d := by
  rw [pkStep]
  split
  · rw [alookup_modifyVal_ne h]
  · rw [alookup_append_single]
    cases hd : alookup k d <;> simp [hd, if_neg h]

theorem alookup_pkStep_self {wk : ℚ} {r : RawResult}
    {d : List (String × CombinedEntry)} :
    alookup (rkey r) (pkStep wk d r) =
      match alookup (rkey r) d with
      | some e => some (kwUpdate wk r e)
      | none => some (mkKwEntry wk r) := by
  cases hd : alookup (rkey r) d with
  | some e =>
    have hs : (alookup (rkey r) d).isSome = true := by rw [hd]; rfl
    rw [pkStep, if_pos hs, alookup_modifyVal_self, hd]
    rfl
  | none =>
    have hs : ¬ (alookup (rkey r) d).isSome = true := by rw [hd]; simp
    rw [pkStep, if_neg hs, alookup_append_single, hd]
    simp

theorem processKeyword_cons {wk : ℚ} {d : List (String × CombinedEntry)}
    {r : RawResult} {rest : List RawResult} :
    processKeyword wk d (r :: rest) = processKeyword wk (pkStep wk d r) rest :=
  rfl

/-- Keyword results whose keys do not occur leave a lookup unchanged. -/
theorem alookup_processKeyword_not_mem {wk : ℚ} {kw : List RawResult}
    {k : String} :
    ∀ {d : List (String × CombinedEntry)}, k ∉ kw.map rkey →
      alookup k (processKeyword wk d kw) = alookup k d := by
  induction kw with
  | nil => intro d _; rfl
  | cons r rest ih =>
    intro d h
    simp only [List.map_cons, List.mem_cons, not_or] at h
    have hne : rkey r ≠ k := fun hh => h.1 hh.symm
    rw [processKeyword_cons, ih h.2, alookup_pkStep_ne hne]

/-- Full characterization of a lookup after the keyword loop, for
distinct keyword keys: a key absent from the keyword results keeps its
vector entry; a key present updates `keyword_score` and accumulates into
`combined_score` when a vector entry exists, else appends a keyword-only
entry. -/
theorem alookup_processKeyword {wk : ℚ} {kw : List RawResult} {k : String}
    (hnd : (kw.map rkey).Nodup) :
    ∀ {d : List (String × CombinedEntry)},
      alookup k (processKeyword wk d kw) =
        match kw.find? (fun r => rkey r == k) with
        | none => alookup k d
        | some r =>
          match alookup k d with
          | some e => some (kwUpdate wk r e)
          | none => some (mkKwEntry wk r) := by
  induction kw with
  | nil => intro d; rfl
  | cons r rest ih =>
    intro d
    simp only [List.map_cons, List.nodup_cons] at hnd
    rw [processKeyword_cons]
    by_cases h : rkey r = k
    · subst h
      have hnr : rkey r ∉ rest.map rkey := hnd.1
      rw [List.find?_cons_of_pos _ (by simp)]
      rw [alookup_processKeyword_not_mem hnr, alookup_pkStep_self]
    · rw [List.find?_cons_of_neg _ (by simpa using h)]
      rw [ih hnd.2]
      cases hf : List.find? (fun r => rkey r == k) rest with
      | none => simp only; exact alookup_pkStep_ne h
      | some r2 => simp only [alookup_pkStep_ne h]

/-- With distinct keyword keys and an empty starting dictionary, every
keyword result appends a fresh keyword-only entry: the keyword loop is a
plain map. -/
theorem processKeyword_eq_map {wk : ℚ} {kw : List RawResult}
    (hk : (kw.map rkey).Nodup) :
    processKeyword wk [] kw = kw.map fun r => (rkey r, mkKwEntry wk r) := by
  suffices h : ∀ (kw : List RawResult) (d : List (String × CombinedEntry)),
      (kw.map rkey).Nodup → (∀ r ∈ kw, rkey r ∉ d.map Prod.fst) →
      processKeyword wk d kw = d ++ kw.map (fun r => (rkey r, mkKwEntry wk r)) by
    simpa using h kw [] hk (by simp)
  intro kw
  induction kw with
  | nil => intro d _ _; simp [processKeyword]
  | cons r rest ih =>
    intro d hnd hdisj
    simp only [List.map_cons, List.nodup_cons] at hnd
    rw [processKeyword_cons]
    have hstep : pkStep wk d r = d ++ [(rkey r, mkKwEntry wk r)] := by
      rw [pkStep, if_neg]
      intro hs
      exact hdisj r (List.mem_cons_self _ _) (alookup_isSome_iff.mp hs)
    rw [hstep, ih (d ++ [(rkey r, mkKwEntry wk r)]) hnd.2 ?_]
    · simp
    · intro x hx
      simp only [List.map_append, List.mem_append, not_or]
      refine ⟨hdisj x (List.mem_cons_of_mem _ hx), ?_⟩
      simp only [List.map_cons, List.map_nil, List.mem_singleton]
      exact fun hh => hnd.1 (hh ▸ List.mem_map_of_mem rkey hx)

/-! ## Claim C6 -/

/-- C6: when exactly one sub-query raises — whichever one —
`HybridSearch.search` does not raise: it returns a result list that is
ranked by descending score, and every returned score is the surviving
branch's raw score times that branch's (normalized) weight.  For the
surviving keyword branch, the per-key raw score presupposes distinct
keyword keys (duplicate keys would accumulate in the merge). -/
theorem c6_single_branch_failure_degrades
    (v kw : List RawResult) (err : String)
    (vector_weight keyword_weight : ℚ) (limit : Nat) :
    (∃ out,
      hybridSearch (.ok v) (.error err) vector_weight keyword_weight limit
        = .ok out ∧
      List.Pairwise (fun a b : FormattedResult => b.score ≤ a.score) out ∧
      ∀ r ∈ out, ∃ x ∈ v,
        r.score = x.score * normVW vector_weight keyword_weight) ∧
    (∃ out,
      hybridSearch (.error err) (.ok kw) vector_weight keyword_weight limit
        = .ok out ∧
      List.Pairwise (fun a b : FormattedResult => b.score ≤ a.score) out ∧
      ((kw.map rkey).Nodup →
        ∀ r ∈ out, ∃ x ∈ kw,
          r.score = x.score * normKW vector_weight keyword_weight)) := by
  constructor
  · refine ⟨_, rfl, ?_, ?_⟩
    · refine List.Pairwise.map _ ?_
        ((sorted_combineSorted v [] _ _).sublist (List.take_sublist _ _))
      exact fun a b h => h
    · intro r hr
      simp only [combineSearchResults, List.mem_map] at hr
      obtain ⟨ent, hent, rfl⟩ := hr
      have h1 : ent ∈ combineSorted v [] (normVW vector_weight keyword_weight)
          (normKW vector_weight keyword_weight) :=
        List.mem_of_mem_take hent
      rw [combineSorted, List.mem_mergeSort] at h1
      simp only [combineValues, processKeyword, List.foldl_nil, List.mem_map]
        at h1
      obtain ⟨p, hp, rfl⟩ := h1
      obtain ⟨x, hx, hpx⟩ := mem_processVector hp
      exact ⟨x, hx, by rw [hpx]; rfl⟩
  · refine ⟨_, rfl, ?_, ?_⟩
    · refine List.Pairwise.map _ ?_
        ((sorted_combineSorted [] kw _ _).sublist (List.take_sublist _ _))
      exact fun a b h => h
    · intro hk r hr
      simp only [combineSearchResults, List.mem_map] at hr
      obtain ⟨ent, hent, rfl⟩ := hr
      have h1 : ent ∈ combineSorted [] kw (normVW vector_weight keyword_weight)
          (normKW vector_weight keyword_weight) :=
        List.mem_of_mem_take hent
      rw [combineSorted, List.mem_mergeSort] at h1
      have hpv : processVector (normVW vector_weight keyword_weight)
          ([] : List RawResult) = [] := rfl
      rw [combineValues, hpv, processKeyword_eq_map hk] at h1
      simp only [List.map_map, List.mem_map, Function.comp] at h1
      obtain ⟨x, hx, rfl⟩ := h1
      exact ⟨x, hx, rfl⟩

theorem c6_single_branch_failure_degrades_witness :
    (([⟨"d2", 1, "u", 1/3, emptyMetadata⟩] : List RawResult).map rkey).Nodup ∧
    ∃ out,
      hybridSearch (.error "vector search failed")
        (.ok [⟨"d2", 1, "u", 1/3, emptyMetadata⟩]) (7/10) (3/10) 10
        = .ok out ∧
      List.Pairwise (fun a b : FormattedResult => b.score ≤ a.score) out ∧
      ∀ r ∈ out, ∃ x ∈ ([⟨"d2", 1, "u", 1/3, emptyMetadata⟩] : List RawResult),
        r.score = x.score * normKW (7/10) (3/10) := by
  refine ⟨by decide, ?_⟩
  obtain ⟨out, h1, h2, h3⟩ :=
    (c6_single_branch_failure_degrades [] [⟨"d2", 1, "u", 1/3, emptyMetadata⟩]
      "vector search failed" (7/10) (3/10) 10).2
  exact ⟨out, h1, h2, h3 (by decide)⟩

/-! ## Claim C5 -/

/-- C5: in `HybridSearch._combine_search_results` (with per-branch
distinct keys), the entry stored under any key `k` carries exactly the
two raw scores of that key — `0` for a branch that does not contain the
key — and `combined_score = vector_score * vector_weight +
keyword_score * keyword_weight`. -/
theorem c5_combined_score_weighted_sum
    (v kw : List RawResult) (wv wk : ℚ)
    (hv : (v.map rkey).Nodup) (hk : (kw.map rkey).Nodup)
    (k : String) (ent : CombinedEntry)
    (hent : alookup k (processKeyword wk (processVector wv v) kw) = some ent) :
    ent.vector_score
        = (((v.find? fun r => rkey r == k).map RawResult.score).getD 0) ∧
    ent.keyword_score
        = (((kw.find? fun r => rkey r == k).map RawResult.score).getD 0) ∧
    ent.combined_score
        = (((v.find? fun r => rkey r == k).map RawResult.score).getD 0) * wv
          + (((kw.find? fun r => rkey r == k).map RawResult.score).getD 0) * wk := by
  rw [alookup_processKeyword hk, processVector_eq_map hv, alookup_map_mk]
    at hent
  cases hfk : kw.find? (fun r => rkey r == k) with
  | none =>
    rw [hfk] at hent
    cases hfv : v.find? (fun r => rkey r == k) with
    | none => rw [hfv] at hent; cases hent
    | some x =>
      rw [hfv] at hent
      cases hent
      simp [mkVecEntry]
  | some r =>
    rw [hfk] at hent
    cases hfv : v.find? (fun r => rkey r == k) with
    | none =>
      rw [hfv] at hent
      cases hent
      simp [mkKwEntry]
    | some x =>
      rw [hfv] at hent
      cases hent
      simp [kwUpdate, mkVecEntry]

theorem c5_combined_score_weighted_sum_witness :
    (([⟨"d1", 0, "t", 1/2, emptyMetadata⟩] : List RawResult).map rkey).Nodup ∧
    (([⟨"d1", 0, "t", 1/3, emptyMetadata⟩] : List RawResult).map rkey).Nodup ∧
    ((⟨"d1", 0, "t", 1/2, 1/3, 5/12, emptyMetadata⟩ : CombinedEntry).vector_score
        = ((([⟨"d1", 0, "t", 1/2, emptyMetadata⟩] : List RawResult).find?
            fun r => rkey r == "d1_0").map RawResult.score).getD 0 ∧
      (⟨"d1", 0, "t", 1/2, 1/3, 5/12, emptyMetadata⟩ : CombinedEntry).keyword_score
        = ((([⟨"d1", 0, "t", 1/3, emptyMetadata⟩] : List RawResult).find?
            fun r => rkey r == "d1_0").map RawResult.score).getD 0 ∧
      (⟨"d1", 0, "t", 1/2, 1/3, 5/12, emptyMetadata⟩ : CombinedEntry).combined_score
        = ((([⟨"d1", 0, "t", 1/2, emptyMetadata⟩] : List RawResult).find?
            fun r => rkey r == "d1_0").map RawResult.score).getD 0 * (1/2)
          + ((([⟨"d1", 0, "t", 1/3, emptyMetadata⟩] : List RawResult).find?
            fun r => rkey r == "d1_0").map RawResult.score).getD 0 * (1/2)) :=
  ⟨by decide, by decide,
    c5_combined_score_weighted_sum
      [⟨"d1", 0, "t", 1/2, emptyMetadata⟩] [⟨"d1", 0, "t", 1/3, emptyMetadata⟩]
      (1/2) (1/2) (by decide) (by decide) "d1_0"
      ⟨"d1", 0, "t", 1/2, 1/3, 5/12, emptyMetadata⟩ (by
        simp +decide [processKeyword, processVector, pkStep, setVal,
          modifyVal, alookup, rkey, mkVecEntry, kwUpdate]
        norm_num)⟩

/-! ## Keys of the combined dictionary -/

theorem keys_pkStep_mem {wk : ℚ} {r : RawResult}
    {d : List (String × CombinedEntry)} (h : rkey r ∈ d.map Prod.fst) :
    (pkStep wk d r).map Prod.fst = d.map Prod.fst := by
  rw [pkStep, if_pos (alookup_isSome_iff.mpr h), keys_modifyVal]

theorem keys_pkStep_not_mem {wk : ℚ} {r : RawResult}
    {d : List (String × CombinedEntry)} (h : rkey r ∉ d.map Prod.fst) :
    (pkStep wk d r).map Prod.fst = d.map Prod.fst ++ [rkey r] := by
  rw [pkStep, if_neg (fun hh => h (alookup_isSome_iff.mp hh))]
  simp

/-- The keys after the keyword loop: the original keys, followed by the
fresh keyword keys in keyword order. -/
theorem keys_processKeyword {wk : ℚ} {kw : List RawResult}
    (hk : (kw.map rkey).Nodup) :
    ∀ {d : List (String × CombinedEntry)},
      (processKeyword wk d kw).map Prod.fst
        = d.map Prod.fst
          ++ (kw.map rkey).filter (fun k => !((d.map Prod.fst).contains k)) := by
  induction kw with
  | nil => intro d; simp [processKeyword]
  | cons r rest ih =>
    intro d
    simp only [List.map_cons, List.nodup_cons] at hk
    rw [processKeyword_cons, List.map_cons]
    by_cases hm : rkey r ∈ d.map Prod.fst
    · rw [ih hk.2, keys_pkStep_mem hm, List.filter_cons]
      rw [if_neg (by simp [hm])]
    · rw [ih hk.2, keys_pkStep_not_mem hm, List.filter_cons]
      rw [if_pos (by simp [hm])]
      rw [List.append_assoc]
      congr 1
      simp only [List.singleton_append]
      congr 1
      apply List.filter_congr
      intro x hx
      have hxr : x ≠ rkey r := fun hh => hk.1 (hh ▸ hx)
      simp [hxr]

/-! ## Claim C8 -/

/-- C8: the list `_combine_search_results` returns is sorted by
descending combined score, has length at most `limit`, the sort is
stable over the dictionary's insertion order (a tied pair keeps its
relative order from `combined_dict.values()`), and that insertion order
is: vector-branch keys first (in vector order), then keyword-only keys
(in keyword order). -/
theorem c8_sorted_stable_truncated
    (v kw : List RawResult) (wv wk : ℚ) (limit : Nat)
    (hv : (v.map rkey).Nodup) (hk : (kw.map rkey).Nodup) :
    (combineSearchResults v kw wv wk limit).Pairwise
        (fun a b => b.score ≤ a.score) ∧
    (combineSearchResults v kw wv wk limit).length ≤ limit ∧
    (∀ a b : CombinedEntry, a.combined_score = b.combined_score →
      List.Sublist [a, b] (combineValues v kw wv wk) →
      List.Sublist [a, b] (combineSorted v kw wv wk)) ∧
    (processKeyword wk (processVector wv v) kw).map Prod.fst
      = v.map rkey
        ++ (kw.map rkey).filter (fun k => !((v.map rkey).contains k)) := by
  refine ⟨?_, ?_, ?_, ?_⟩
  · refine List.Pairwise.map _ (fun a b h => h)
      ((sorted_combineSorted v kw wv wk).sublist (List.take_sublist _ _))
  · rw [combineSearchResults, List.length_map, List.length_take]
    exact min_le_left _ _
  · intro a b heq hsub
    exact List.pair_sublist_mergeSort scoreDesc_trans scoreDesc_total
      (by simp [scoreDesc, heq]) hsub
  · have hkeys : (processVector wv v).map Prod.fst = v.map rkey := by
      simp [processVector_eq_map hv, Function.comp]
    rw [keys_processKeyword hk, hkeys]

theorem c8_sorted_stable_truncated_witness :
    (([⟨"d1", 0, "t", 1/2, emptyMetadata⟩] : List RawResult).map rkey).Nodup ∧
    (([⟨"d2", 1, "u", 1/3, emptyMetadata⟩] : List RawResult).map rkey).Nodup ∧
    (combineSearchResults [⟨"d1", 0, "t", 1/2, emptyMetadata⟩]
      [⟨"d2", 1, "u", 1/3, emptyMetadata⟩] (7/10) (3/10) 1).length ≤ 1 :=
  ⟨by decide, by decide,
    (c8_sorted_stable_truncated [⟨"d1", 0, "t", 1/2, emptyMetadata⟩]
      [⟨"d2", 1, "u", 1/3, emptyMetadata⟩] (7/10) (3/10) 1
      (by decide) (by decide)).2.1⟩

/-! ## Chunker bounds -/

theorem lastIdx_lt_length {c : Char} {l : List Char} {i : Nat}
    (h : lastIdx c l = some i) : i < l.length := by
  induction l generalizing i with
  | nil => cases h
  | cons x xs ih =>
    rw [lastIdx] at h
    cases hx : lastIdx c xs with
    | some j =>
      rw [hx] at h
      injection h with h
      subst h
      exact Nat.succ_lt_succ (ih hx)
    | none =>
      rw [hx] at h
      by_cases hxc : x = c
      · rw [if_pos hxc] at h
        injection h with h
        subst h
        simp
      · rw [if_neg hxc] at h
        cases h

/-- A Python `rfind` result is always below the text length. -/
theorem pyRfind_lt_length (t : List Char) (c : Char) (a b : Int) :
    pyRfind t c a b < (t.length : Int) := by
  rw [pyRfind]
  cases h : lastIdx c ((t.drop ((pyNorm t.length a).toNat)).take
      ((pyNorm t.length b).toNat - (pyNorm t.length a).toNat)) with
  | none =>
    simp only
    exact lt_of_lt_of_le (by norm_num) (Int.ofNat_nonneg _)
  | some i =>
    simp only
    have h1 := lastIdx_lt_length h
    rw [List.length_take, List.length_drop] at h1
    have h2 : i < t.length - (pyNorm t.length a).toNat :=
      lt_of_lt_of_le h1 (min_le_right _ _)
    have h3 : (pyNorm t.length a).toNat + i < t.length := by omega
    exact_mod_cast h3

/-- The loop body's `end` always lies strictly below `len(text) +
chunk_size` as long as the loop guard `start < len(text)` held. -/
theorem chunkEnd_lt (t : List Char) (cs s : Int) (hcs : 0 < cs)
    (hs : s < (t.length : Int)) :
    chunkEnd t cs s < (t.length : Int) + cs := by
  simp only [chunkEnd]
  split
  · split
    · have h := pyRfind_lt_length t '.' (max s (s + cs - 100)) (s + cs)
      omega
    · split
      · have h := pyRfind_lt_length t ' ' (max s (s + cs - 100)) (s + cs)
        omega
      · omega
  · omega

/-- The loop body's `end` is always strictly beyond `start`. -/
theorem lt_chunkEnd (t : List Char) (cs s : Int) (hcs : 0 < cs) :
    s < chunkEnd t cs s := by
  simp only [chunkEnd]
  split
  · split
    · omega
    · split
      · omega
      · omega
  · omega

/-! ## Runs on uniform text

On a text of identical non-whitespace, non-period characters neither
boundary snap ever fires, so each iteration proposes `end = start +
chunk_size` and advances by `chunk_size - chunk_overlap`.  These lemmas
compute such runs symbolically (a 2500-character list is too large to
evaluate inside the kernel). -/

theorem lastIdx_replicate {a c : Char} (hc : ¬ a = c) :
    ∀ n, lastIdx c (List.replicate n a) = none := by
  intro n
  induction n with
  | zero => rfl
  | succ m ih =>
    rw [List.replicate_succ, lastIdx, ih, if_neg hc]

theorem pyRfind_replicate {a c : Char} (hc : ¬ a = c) (n : Nat) (i j : Int) :
    pyRfind (List.replicate n a) c i j = -1 := by
  rw [pyRfind]
  simp only [List.drop_replicate, List.take_replicate, lastIdx_replicate hc]

theorem pyStrip_replicate (n : Nat) :
    pyStrip (List.replicate n 'a') = List.replicate n 'a' := by
  rw [pyStrip]
  rw [List.dropWhile_replicate, if_neg (by decide), List.reverse_replicate,
    List.dropWhile_replicate, if_neg (by decide), List.reverse_replicate]

theorem pySlice_replicate (n : Nat) (i j : Int) :
    pySlice (List.replicate n 'a') i j
      = List.replicate
          (min ((pyNorm n j).toNat - (pyNorm n i).toNat)
            (n - (pyNorm n i).toNat)) 'a' := by
  rw [pySlice]
  simp only [List.length_replicate, List.drop_replicate, List.take_replicate]

theorem chunkEnd_replicate (n : Nat) (cs s : Int) (hs : 0 ≤ s) :
    chunkEnd (List.replicate n 'a') cs s = s + cs := by
  simp only [chunkEnd, List.length_replicate]
  split
  · rw [pyRfind_replicate (by decide), if_neg (by omega),
      pyRfind_replicate (by decide), if_neg (by omega)]
  · rfl

theorem strip_slice_replicate_isEmpty (n : Nat) (s e : Int) (hs : 0 ≤ s)
    (hsn : s < (n : Int)) (hse : s < e) :
    (pyStrip (pySlice (List.replicate n 'a') s e)).isEmpty = false := by
  rw [pySlice_replicate, pyStrip_replicate, List.isEmpty_replicate]
  simp only [decide_eq_false_iff_not]
  have h1 : (pyNorm n s).toNat = s.toNat := by
    rw [pyNorm, if_neg (by omega)]
    omega
  have h2 : (pyNorm n e).toNat = (min (n : Int) e).toNat := by
    rw [pyNorm, if_neg (by omega)]
    omega
  omega

/-- One loop iteration on uniform text: emit the `[s, s+cs)` chunk and
advance to `s + cs - ov`. -/
theorem createChunksGo_replicate_step (n : Nat) (cs ov : Int) (fuel : Nat)
    (s : Int) (idx : Nat) (acc : List Chunk) (hcs : 0 < cs) (hs : 0 ≤ s)
    (hsn : s < (n : Int)) :
    createChunksGo (List.replicate n 'a') cs ov (fuel + 1) s idx acc
      = if (n : Int) ≤ s + cs - ov then
          some (acc ++ [⟨pyStrip (pySlice (List.replicate n 'a') s (s + cs)),
            idx, s, s + cs⟩])
        else
          createChunksGo (List.replicate n 'a') cs ov fuel (s + cs - ov)
            (idx + 1)
            (acc ++ [⟨pyStrip (pySlice (List.replicate n 'a') s (s + cs)),
              idx, s, s + cs⟩]) := by
  have hne := strip_slice_replicate_isEmpty n s (s + cs) hs hsn (by omega)
  simp only [createChunksGo, List.length_replicate,
    chunkEnd_replicate n cs s hs, hne, if_pos hsn, Bool.false_eq_true,
    if_false]

/-! ## Claim C2 -/

/-- Counterexample to C2: on a 2500-character text of identical
non-space characters with `chunk_size=1000, chunk_overlap=200`, the
emitted `end_char`s are `1000, 1800, 2600, 3400`: the third already
exceeds `len(text) = 2500`, and the last is `3400`, not `2500`. -/
theorem c2_counterexample :
    ((createChunks (List.replicate 2500 'a') 1000 200 10).map
        (fun out => out.map Chunk.end_char)) = some [1000, 1800, 2600, 3400] ∧
    (2500 : Int) < 2600 ∧ (3400 : Int) ≠ 2500 := by
  refine ⟨?_, by norm_num, by norm_num⟩
  rw [createChunks,
    if_neg (by rw [pyStrip_replicate, List.isEmpty_replicate]; decide)]
  rw [createChunksGo_replicate_step 2500 1000 200 9 0 0 []
      (by norm_num) (by norm_num) (by norm_num),
    if_neg (by norm_num)]
  norm_num only
  rw [createChunksGo_replicate_step 2500 1000 200 8 800 1 _
      (by norm_num) (by norm_num) (by norm_num),
    if_neg (by norm_num)]
  norm_num only
  rw [createChunksGo_replicate_step 2500 1000 200 7 1600 2 _
      (by norm_num) (by norm_num) (by norm_num),
    if_neg (by norm_num)]
  norm_num only
  rw [createChunksGo_replicate_step 2500 1000 200 6 2400 3 _
      (by norm_num) (by norm_num) (by norm_num),
    if_pos (by norm_num)]
  simp only [Option.map_some, List.nil_append, List.cons_append,
    List.map_cons, List.map_nil, List.append_assoc, List.singleton_append]
  norm_num

/-- C2 (amended): a chunk's `end_char` is not bounded by `len(text)`;
what holds is `end_char < len(text) + chunk_size` for every emitted
chunk (the final chunk may record an `end_char` past the end of the
text, as the counterexample's `3400` shows). -/
theorem c2_end_char_bound (t : List Char) (cs ov : Int) (fuel : Nat)
    (out : List Chunk) (hov : 0 < ov) (hoc : ov < cs)
    (h : createChunks t cs ov fuel = some out) :
    ∀ c ∈ out, c.end_char < (t.length : Int) + cs := by
  have hcs : 0 < cs := lt_trans hov hoc
  rw [createChunks] at h
  split at h
  · cases h; simp
  · suffices hgo : ∀ (fuel : Nat) (s : Int) (idx : Nat) (acc : List Chunk),
        (∀ c ∈ acc, c.end_char < (t.length : Int) + cs) →
        createChunksGo t cs ov fuel s idx acc = some out →
        ∀ c ∈ out, c.end_char < (t.length : Int) + cs from
      hgo fuel 0 0 [] (by simp) h
    intro fuel
    induction fuel with
    | zero => intro s idx acc _ hgo; cases hgo
    | succ n ih =>
      intro s idx acc hacc hgo
      simp only [createChunksGo] at hgo
      split at hgo
      · rename_i hs
        have hend := chunkEnd_lt t cs s hcs hs
        have hacc2 : ∀ c ∈ (if (pyStrip (pySlice t s (chunkEnd t cs s))).isEmpty
            then acc
            else acc ++ [⟨pyStrip (pySlice t s (chunkEnd t cs s)), idx, s,
              chunkEnd t cs s⟩]),
            c.end_char < (t.length : Int) + cs := by
          split
          · exact hacc
          · intro c hc
            rcases List.mem_append.mp hc with hc | hc
            · exact hacc c hc
            · rw [List.mem_singleton] at hc
              rw [hc]
              exact hend
        split at hgo
        · cases hgo; exact hacc2
        · exact ih _ _ _ hacc2 hgo
      · cases hgo; exact hacc

theorem c2_end_char_bound_witness :
    (0 : Int) < 1 ∧ (1 : Int) < 2 ∧
    ((⟨['c'], 2, 2, 4⟩ : Chunk).end_char < (("abc".data.length : Int) + 2)) :=
  ⟨by decide, by decide,
    c2_end_char_bound "abc".data 2 1 10
      [⟨['a', 'b'], 0, 0, 2⟩, ⟨['b', 'c'], 1, 1, 3⟩, ⟨['c'], 2, 2, 4⟩]
      (by decide) (by decide) (by decide) ⟨['c'], 2, 2, 4⟩ (by decide)⟩

/-! ## Claim C3 -/

theorem createChunksGo_abcd_step (fuel : Nat) (idx : Nat) (acc : List Chunk) :
    createChunksGo "a bcd".data 3 1 (fuel + 1) 0 idx acc
      = createChunksGo "a bcd".data 3 1 fuel 0 (idx + 1)
          (acc ++ [⟨['a'], idx, 0, 1⟩]) := rfl

/-- C3 fails on the code: on `text = "a bcd"` with `chunk_size=3,
chunk_overlap=1` (a valid configuration, `0 < 1 < 3`), the loop never
terminates — the word-boundary snap sets `end = 1`, the overlap step
resets `start` to `0`, and the same chunk `"a"` is emitted forever.  In
the fuel-indexed embedding the loop exhausts every fuel. -/
theorem c3_nontermination (fuel : Nat) :
    createChunks "a bcd".data 3 1 fuel = none := by
  rw [createChunks, if_neg (by decide)]
  suffices h : ∀ (fuel idx : Nat) (acc : List Chunk),
      createChunksGo "a bcd".data 3 1 fuel 0 idx acc = none from h fuel 0 []
  intro fuel
  induction fuel with
  | zero => intro idx acc; rfl
  | succ n ih =>
    intro idx acc
    rw [createChunksGo_abcd_step]
    exact ih (idx + 1) (acc ++ [⟨['a'], idx, 0, 1⟩])

end RagService
